import Mathlib

/-!
Verification of the TimeTree "today" notification pipeline
(`scripts/notify_today.py`).

Strings are modelled as `List Char` (one entry per Unicode code point,
matching Python's `len`/slicing semantics).  Whitespace is modelled by the
ASCII whitespace characters recognised by Python's `\s`/`str.strip` (the
inputs of interest contain no exotic Unicode spaces).  Line splitting is
modelled on `'\n'` boundaries, the only line separator produced by the
pipeline itself.  Aware datetimes are modelled by their JST wall-clock
minute count (an `Int`); `Asia/Tokyo` has the fixed offset UTC+9h = 540
minutes, so wall-clock order coincides with instant order and adding a
`timedelta` adds the corresponding number of minutes.
-/

abbrev Str := List Char

/-- Python whitespace (`\s`, `str.strip`) restricted to ASCII. -/
def pySpace (c : Char) : Bool :=
  c = ' ' || c = '\t' || c = '\n' || c = '\r' || c = '\x0b' || c = '\x0c'

/-- `str.lstrip()`. -/
def lstrip (s : Str) : Str := s.dropWhile pySpace

/-- `str.rstrip()`. -/
def rstrip (s : Str) : Str := (lstrip s.reverse).reverse

/-- `str.strip()`. -/
def stripWS (s : Str) : Str := rstrip (lstrip s)

/-- Emit a finished whitespace run: a run of two or more whitespace
characters becomes a single space, a lone whitespace character is kept. -/
def flushRun (run : Str) : Str :=
  match run with
  | [] => []
  | [c] => [c]
  | _ => [' ']

/-- Single pass for `re.sub(r"\s{2,}", " ", s)`, accumulating the current
maximal whitespace run in `run`. -/
def collapseGo (run : Str) : Str → Str
  | [] => flushRun run
  | c :: s =>
    if pySpace c then collapseGo (run ++ [c]) s
    else flushRun run ++ c :: collapseGo [] s

/-- `re.sub(r"\s{2,}", " ", s)`: every maximal run of two or more
whitespace characters is replaced by a single space; single whitespace
characters are kept as they are. -/
def collapseWS (s : Str) : Str := collapseGo [] s

/-- Per-line cleaning `re.sub(r"\s{2,}", " ", ln.strip())` applied to every
raw line in `clean_description`/`shape_memo`. -/
def lineShape (l : Str) : Str := collapseWS (stripWS l)

/-- Split on `'\n'`; always returns a nonempty list of chunks. -/
def splitNl : Str → List Str
  | [] => [[]]
  | c :: s =>
    if c = '\n' then [] :: splitNl s
    else
      match splitNl s with
      | l :: ls => (c :: l) :: ls
      | [] => [[c]]

/-- Python `str.splitlines()` for `'\n'`-separated text: the empty string
has no lines, and a trailing newline does not produce a final empty line. -/
def splitlines (s : Str) : List Str :=
  if s = [] then []
  else
    let ls := splitNl s
    if ls.getLast? = some [] then ls.dropLast else ls

/-- `"\n".join(lines)`. -/
def joinNl : List Str → Str
  | [] => []
  | [l] => l
  | l :: ls => l ++ '\n' :: joinNl ls

/-- The fixed time-label marker `【開催時刻】`. -/
def timeLabel : Str := "【開催時刻】".toList

/-- `ln.startswith("【開催時刻】")`. -/
def isLabelLn (l : Str) : Bool := timeLabel.isPrefixOf l

/-- `re.match(r"^【開催時刻】\s*終日\s*$", ln)`. -/
def isMarkerLn (l : Str) : Bool :=
  isLabelLn l &&
    (let r := (l.drop 6).dropWhile pySpace
     ("終日".toList).isPrefixOf r && (r.drop 2).all pySpace)

/-- The ellipsis appended when a memo is truncated (`…（続きあり）`). -/
def ellipsisSfx : Str := "…（続きあり）".toList

/-- The line-filtering loop of `shape_memo` (lines 92-110 of
`notify_today.py`), carrying the raw line index, the
`prev_was_time_label` flag and the running `blank_count`. -/
def shape_lines (allday : Bool) : Nat → Bool → Nat → List Str → List Str
  | _, _, _, [] => []
  | idx, prev, blanks, ln :: rest =>
    if allday && decide (idx < 3) && isMarkerLn ln then
      shape_lines allday (idx + 1) prev blanks rest
    else if isLabelLn ln && prev then
      shape_lines allday (idx + 1) prev blanks rest
    else
      if ln = [] then
        if blanks + 1 > 1 then
          shape_lines allday (idx + 1) (isLabelLn ln) (blanks + 1) rest
        else
          ln :: shape_lines allday (idx + 1) (isLabelLn ln) (blanks + 1) rest
      else
        ln :: shape_lines allday (idx + 1) (isLabelLn ln) 0 rest

/-- The joined, stripped text `s` computed by `shape_memo` before the
length cut (lines 88-112 of `notify_today.py`). -/
def shape_core (desc : Str) (allday : Bool) : Str :=
  stripWS (joinNl (shape_lines allday 0 false 0 ((splitlines desc).map lineShape)))

/-- `shape_memo(desc, max_len, allday_like)` (lines 85-115 of
`notify_today.py`). -/
def shape_memo (desc : Str) (max_len : Int) (allday : Bool) : Str :=
  if desc = [] then []
  else
    let s := shape_core desc allday
    if 0 < max_len ∧ max_len < (s.length : Int) then
      s.take max_len.toNat ++ ellipsisSfx
    else s

/-- The fixed suffix appended by `clip_message` (`…（長文省略）`). -/
def omitSfx : Str := "…（長文省略）".toList

/-- `clip_message(message)` (lines 274-279 of `notify_today.py`). -/
def clip_message (message : Str) : Str :=
  if message.length ≤ 5000 then message
  else message.take (max 0 (4800 - omitSfx.length)) ++ omitSfx

/-! ## Time model (`normalize_event_to_jst`, lines 118-163) -/

/-- The three shapes a `DTSTART`/`DTEND` value can take (spec §9 sum type):
a bare calendar date, a naive (zone-less) timestamp, or a zoned timestamp.
`day` counts days, `wall` counts wall-clock minutes, `offset` is the zone's
UTC offset in minutes. -/
inductive DTValue
  | dateOnly (day : Int)
  | naive (wall : Int)
  | zoned (wall : Int) (offset : Int)
deriving DecidableEq

/-- `Asia/Tokyo` = UTC+9h, in minutes (fixed, no DST). -/
def jstOffset : Int := 540

/-- JST-aware datetimes are identified with their JST wall-clock minute
count; this recovers the absolute instant they denote. -/
def jstInstant (wall : Int) : Int := wall - jstOffset

/-- Absolute instant of a zoned (wall, offset) timestamp. -/
def zonedInstant (wall offset : Int) : Int := wall - offset

/-- The inner `to_jst` of `normalize_event_to_jst` (lines 139-147):
a bare date becomes local midnight in JST, a naive timestamp keeps its
wall clock and is tagged JST (`replace(tzinfo=JST)`), a zoned timestamp
is converted to the same instant in JST (`astimezone(JST)`). -/
def to_jst : DTValue → Int
  | .dateOnly d => d * 1440
  | .naive w => w
  | .zoned w off => w - off + jstOffset

/-- `isinstance(x, date) and not isinstance(x, datetime)`. -/
def is_date_only : DTValue → Bool
  | .dateOnly _ => true
  | _ => false

/-- `normalize_event_to_jst` (lines 118-158) on the start/end fields:
returns `(start, end, allday_like, fixed)` in JST minutes, or `none`
when `DTSTART` is absent. -/
def normalize_event_to_jst (dtstart dtend : Option DTValue) :
    Option (Int × Int × Bool × Bool) :=
  match dtstart with
  | none => none
  | some ds =>
    let allday := is_date_only ds ||
      (match dtend with | some de => is_date_only de | none => false)
    let s := to_jst ds
    match dtend with
    | some de =>
      let e := to_jst de
      if e ≤ s then
        some (s, s + (if allday then 1440 else 60), allday, true)
      else
        some (s, e, allday, false)
    | none => some (s, s + (if allday then 1440 else 60), allday, true)

/-- `overlaps_today_jst` (lines 161-163): half-open interval overlap. -/
def overlaps_today_jst (s e dayStart dayEnd : Int) : Bool :=
  decide (s < dayEnd) && decide (dayStart < e)

/-! ## Link extraction (`extract_meeting_link`, lines 58-72)

The five meeting-link regexes and the bare-URL fallback are modelled by
bespoke leftmost-match searchers with the regex engine's
greedy-then-backtrack semantics.  `\w` is modelled as ASCII alphanumeric
or underscore. -/

def isWordCh (c : Char) : Bool := c.isAlphanum || c = '_'

def isMidCh (c : Char) : Bool := isWordCh c || c = '.' || c = '-'

def nonSp (c : Char) : Bool := !pySpace c

/-- Match `https?://` at the start (the optional `s` taken greedily). -/
def schemeSplit (s : Str) : Option (Str × Str) :=
  if ("https://".toList).isPrefixOf s then some ("https://".toList, s.drop 8)
  else if ("http://".toList).isPrefixOf s then some ("http://".toList, s.drop 7)
  else none

/-- Try the tail `<mid>^k <lit> <tail-charset>+` with the star consuming
exactly `k` characters of `T`. -/
def attemptAt (lit : Str) (tailCh : Char → Bool) (T : Str) (k : Nat) : Option Str :=
  if lit.isPrefixOf (T.drop k) then
    let tl := (T.drop (k + lit.length)).takeWhile tailCh
    if tl = [] then none else some (T.take k ++ (lit ++ tl))
  else none

/-- Backtracking loop: try star sizes from `k` down to `kmin`. -/
def tryFrom (lit : Str) (tailCh : Char → Bool) (T : Str) (kmin : Nat) : Nat → Option Str
  | 0 => if kmin = 0 then attemptAt lit tailCh T 0 else none
  | k + 1 =>
    if k + 1 < kmin then none
    else
      match attemptAt lit tailCh T (k + 1) with
      | some r => some r
      | none => tryFrom lit tailCh T kmin k

/-- Match `https?://<mid>{kmin,}<lit>\S+` at the start of `s`, the star
greedy over the charset `mid`. -/
def matchMidAt (mid : Char → Bool) (kmin : Nat) (lit : Str) (s : Str) : Option Str :=
  match schemeSplit s with
  | none => none
  | some (sch, rest) =>
    (tryFrom lit nonSp rest kmin ((rest.takeWhile mid).length)).map (fun r => sch ++ r)

/-- `https?://[\w.-]*zoom\.us/\S+`. -/
def matchZoomAt : Str → Option Str := matchMidAt isMidCh 0 ("zoom.us/".toList)

/-- `https?://meet\.google\.com/\S+`. -/
def matchMeetAt : Str → Option Str := matchMidAt (fun _ => false) 0 ("meet.google.com/".toList)

/-- `https?://teams\.microsoft\.com/\S+`. -/
def matchTeamsAt : Str → Option Str := matchMidAt (fun _ => false) 0 ("teams.microsoft.com/".toList)

/-- `https?://\w+\.webex\.com/\S+`. -/
def matchWebex1At : Str → Option Str := matchMidAt isWordCh 1 (".webex.com/".toList)

/-- `https?://webex\.com/\S+`. -/
def matchWebex2At : Str → Option Str := matchMidAt (fun _ => false) 0 ("webex.com/".toList)

/-- `https?://[^\s)]+` (the bare-URL fallback). -/
def matchFallbackAt (s : Str) : Option Str :=
  match schemeSplit s with
  | none => none
  | some (sch, rest) =>
    let tl := rest.takeWhile (fun c => !pySpace c && decide (c ≠ ')'))
    if tl = [] then none else some (sch ++ tl)

/-- `re.search`: leftmost position at which the matcher succeeds. -/
def searchStr (m : Str → Option Str) : Str → Option Str
  | [] => m []
  | c :: s =>
    match m (c :: s) with
    | some r => some r
    | none => searchStr m s

/-- The `patterns` list of `extract_meeting_link`, in source order. -/
def patList : List (Str → Option Str) :=
  [matchZoomAt, matchMeetAt, matchTeamsAt, matchWebex1At, matchWebex2At]

/-- The `for pat in patterns` loop with early return. -/
def extract_loop : List (Str → Option Str) → Str → Option Str
  | [], _ => none
  | p :: ps, corpus =>
    match searchStr p corpus with
    | some r => some r
    | none => extract_loop ps corpus

/-- `"\n".join(filter(None, [url_prop or "", text or ""]))`. -/
def corpusOf (url text : Str) : Str :=
  joinNl (List.filter (fun l => decide (l ≠ [])) [url, text])

/-- `extract_meeting_link(text, url_prop)` (lines 58-72). -/
def extract_meeting_link (text url : Str) : Str :=
  let corpus := corpusOf url text
  match extract_loop patList corpus with
  | some r => r
  | none =>
    match searchStr matchFallbackAt corpus with
    | some r => r
    | none => []

/-- The call site in `format_events_for_today` (line 209): the searched
text is the description joined with the (stripped) location. -/
def event_link (desc loc url : Str) : Str :=
  extract_meeting_link (desc ++ '\n' :: loc) url

/-- Modelled from the spec (§4.3 "first pattern with any match wins,
fall back to the first bare token, else empty"): the same extraction
expressed with `findSome?`/`getD`, used as the specification side of the
refinement. -/
def specLink (corpus : Str) : Str :=
  (((patList.findSome? (fun p => searchStr p corpus)).or
    (searchStr matchFallbackAt corpus)).getD [])

/-! ## Per-event formatting (`format_events_for_today`, lines 169-244) -/

/-- ASCII decimal digit of a value `< 10`. -/
def digCh : Nat → Char
  | 0 => '0' | 1 => '1' | 2 => '2' | 3 => '3' | 4 => '4'
  | 5 => '5' | 6 => '6' | 7 => '7' | 8 => '8' | _ => '9'

/-- Two-digit zero-padded decimal (values below 100). -/
def twoDig (n : Nat) : Str := [digCh (n / 10), digCh (n % 10)]

/-- `dt.strftime('%H:%M')` of a JST wall-minute count. -/
def fmtHM (wall : Int) : Str :=
  let m := (wall.emod 1440).toNat
  twoDig (m / 60) ++ ':' :: twoDig (m % 60)

/-- The placeholder title `(無題)` for events with no summary (line 193). -/
def placeholderTitle : Str := "(無題)".toList

/-- A raw VEVENT record as consumed by the pipeline. -/
structure VEvent where
  dtstart : Option DTValue
  dtend : Option DTValue
  summary : Option Str
  location : Option Str
  url : Option Str
  description : Option Str

/-- The configuration read from the environment (`SHOW_MEMO`,
`SHOW_LINKS`, `MEMO_MAX`). -/
structure Config where
  showMemo : Bool
  showLinks : Bool
  memoMax : Int

/-- The per-event message line list (lines 214-219). -/
def item_lines (cfg : Config) (allday : Bool) (dispStart : Int)
    (title link memo : Str) : List Str :=
  ('・' :: (if allday then ("終日".toList) else fmtHM dispStart)) :: title ::
    ((if cfg.showLinks && decide (link ≠ []) then [("リンク：".toList) ++ link] else [])
      ++ (if cfg.showMemo && decide (memo ≠ []) then [("メモ：".toList), memo] else []))

/-- One iteration of the event loop of `format_events_for_today`
(lines 180-223): normalize, filter by overlap, clip, shape, and build the
`(disp_start, title, joined-lines)` item; `none` when the event is
unusable or does not overlap the day window. -/
def item_of (cfg : Config) (dayStart dayEnd : Int) (ev : VEvent) :
    Option (Int × Str × Str) :=
  match normalize_event_to_jst ev.dtstart ev.dtend with
  | none => none
  | some (s, e, allday, _fixed) =>
    if overlaps_today_jst s e dayStart dayEnd then
      let dispStart := if dayStart ≤ s then s else dayStart
      let title := match ev.summary with
        | some t => t
        | none => placeholderTitle
      let loc := match ev.location with
        | some l => stripWS l
        | none => []
      let urlProp := stripWS (match ev.url with | some u => u | none => [])
      let descRaw := match ev.description with | some d => d | none => []
      let memo := if cfg.showMemo then shape_memo descRaw cfg.memoMax allday else []
      let link := if cfg.showLinks then event_link descRaw loc urlProp else []
      some (dispStart, title, joinNl (item_lines cfg allday dispStart title link memo))
    else none

/-- The item accumulation over all VEVENTs. -/
def collect_items (cfg : Config) (dayStart dayEnd : Int) (evs : List VEvent) :
    List (Int × Str × Str) :=
  evs.filterMap (item_of cfg dayStart dayEnd)

/-- Python tuple-key comparison for `items.sort(key=lambda x: (x[0], x[1]))`:
`x` precedes-or-ties `y` when its `(disp_start, title)` key is not greater
(title order is lexicographic by code point, as in Python). -/
def keyLe (x y : Int × Str × Str) : Prop :=
  x.1 < y.1 ∨ (x.1 = y.1 ∧ x.2.1 ≤ y.2.1)

instance : DecidableRel keyLe := fun x y => by
  unfold keyLe
  infer_instance

instance : IsTotal (Int × Str × Str) keyLe := by
  constructor
  intro a b
  rcases lt_trichotomy a.1 b.1 with h | h | h
  · exact Or.inl (Or.inl h)
  · rcases le_total a.2.1 b.2.1 with ht | ht
    · exact Or.inl (Or.inr ⟨h, ht⟩)
    · exact Or.inr (Or.inr ⟨h.symm, ht⟩)
  · exact Or.inr (Or.inl h)

instance : IsTrans (Int × Str × Str) keyLe := by
  constructor
  rintro a b c (hab | ⟨hab, hab'⟩) (hbc | ⟨hbc, hbc'⟩)
  · exact Or.inl (hab.trans hbc)
  · exact Or.inl (hbc ▸ hab)
  · exact Or.inl (hab ▸ hbc)
  · exact Or.inr ⟨hab.trans hbc, hab'.trans hbc'⟩

/-- `items.sort(key=lambda x: (x[0], x[1]))` (line 236): a stable sort by
the `(disp_start, title)` key. -/
def sort_items (items : List (Int × Str × Str)) : List (Int × Str × Str) :=
  List.insertionSort keyLe items

/-- The ordered event message list of the digest (lines 236-243). -/
def event_msgs (cfg : Config) (dayStart dayEnd : Int) (evs : List VEvent) : List Str :=
  (sort_items (collect_items cfg dayStart dayEnd evs)).map (fun it => it.2.2)

/-! ## Dispatch (`send_messages`, lines 294-331)

The transport is the injected collaborator
`send(text) -> (status, ok, summary)`. The model returns
`(overall-ok, sent-count, error-count, failure-diagnostics)`,
where each diagnostic carries the title hint and transport summary
printed by the `送信失敗` line. -/

structure SendOut where
  status : Int
  ok : Bool
  summary : Str

def noTitleHint : Str := "(no-title)".toList

/-- `titles[idx] if titles and idx < len(titles) else "(no-title)"`. -/
def title_hint (titles : Option (List Str)) (idx : Nat) : Str :=
  match titles with
  | some ts => if idx < ts.length then ts.getD idx [] else noTitleHint
  | none => noTitleHint

/-- The `for idx, msg in enumerate(messages)` loop (lines 321-328):
returns (sent, errors, failure diagnostics) for the event messages. -/
def send_event_loop (send : Str → SendOut) (titles : Option (List Str)) :
    Nat → List Str → Nat × Nat × List (Str × Int × Str)
  | _, [] => (0, 0, [])
  | idx, m :: ms =>
    let r := send (clip_message m)
    let rest := send_event_loop send titles (idx + 1) ms
    (rest.1 + 1,
     (if r.ok then rest.2.1 else rest.2.1 + 1),
     (if r.ok then rest.2.2 else (title_hint titles idx, r.status, r.summary) :: rest.2.2))

/-- `send_messages(header, messages, titles)` (lines 294-331): header
first, then every event message; a failed send never stops the loop;
result is `errors == 0`. -/
def send_messages (send : Str → SendOut) (header : Str) (messages : List Str)
    (titles : Option (List Str)) : Bool × Nat × Nat × List (Str × Int × Str) :=
  let rh := send (clip_message header)
  let hErr : Nat := if rh.ok then 0 else 1
  let rest := send_event_loop send titles 0 messages
  (decide (hErr + rest.2.1 = 0), 1 + rest.1, hErr + rest.2.1, rest.2.2)

/-- Modelled from the spec's sentence for the claim under test: link
extraction over "the concatenation of the explicit URL field and the
description" only (no location). -/
def claimedLink (desc url : Str) : Str := specLink (corpusOf url desc)

/-! ## Invariants used in the memo-shaping proofs -/

/-- No two adjacent whitespace characters. -/
def noTwoSp (l : Str) : Prop :=
  List.Chain' (fun a b => ¬(pySpace a = true ∧ pySpace b = true)) l

/-- A line fixed by per-line cleaning: no adjacent whitespace pair and
non-whitespace (or absent) first and last characters. -/
def NiceLn (l : Str) : Prop :=
  noTwoSp l ∧ (∀ c, l.head? = some c → pySpace c = false) ∧
    (∀ c, l.getLast? = some c → pySpace c = false)

/-- No two adjacent blank lines. -/
def chainBlank (ls : List Str) : Prop :=
  List.Chain' (fun a b => ¬(a = [] ∧ b = [])) ls

/-- No two adjacent time-label lines. -/
def chainLabel (ls : List Str) : Prop :=
  List.Chain' (fun a b => ¬(isLabelLn a = true ∧ isLabelLn b = true)) ls

/-- Drop a leading blank line. -/
def dropLeadBlank : List Str → List Str
  | [] :: t => t
  | o => o

/-- Drop a trailing blank line. -/
def dropTrailBlank (o : List Str) : List Str := (dropLeadBlank o.reverse).reverse

/-- Drop the (at most one) blank line at each end. -/
def trimB (o : List Str) : List Str := dropTrailBlank (dropLeadBlank o)

/-! # Theorems -/

/-! ## General helper lemmas -/

theorem joinNl_cons₂ (a b : Str) (r : List Str) :
    joinNl (a :: b :: r) = a ++ '\n' :: joinNl (b :: r) := rfl

theorem splitNl_ne_nil (s : Str) : splitNl s ≠ [] := by
  cases s with
  | nil => simp [splitNl]
  | cons c t =>
    simp only [splitNl]
    split
    · simp
    · split <;> simp_all

theorem splitNl_no_nl (a : Str) (h : '\n' ∉ a) : splitNl a = [a] := by
  induction a with
  | nil => rfl
  | cons c t ih =>
    have hc : ¬ c = '\n' := by
      intro hh
      exact h (by simp [hh])
    have ht : '\n' ∉ t := fun hm => h (List.mem_cons_of_mem _ hm)
    simp [splitNl, hc, ih ht]

theorem splitNl_append_cons (a b : Str) (h : '\n' ∉ a) :
    splitNl (a ++ '\n' :: b) = a :: splitNl b := by
  induction a with
  | nil => simp [splitNl]
  | cons c t ih =>
    have hc : ¬ c = '\n' := by
      intro hh
      exact h (by simp [hh])
    have ht : '\n' ∉ t := fun hm => h (List.mem_cons_of_mem _ hm)
    simp [List.cons_append, splitNl, hc, ih ht]

/-! ## Claim C1: interval repair in `normalize_event_to_jst` -/

/-- C1: for every event with a present start, normalization yields
`end > start`; when `end` is absent or coerces to `end ≤ start`, the end
is synthesized as `start + 1 day` (all-day-like) or `start + 1 hour`, and
the `fixed` flag is true exactly in that case. -/
theorem normalize_repairs_interval (ds : DTValue) (de : Option DTValue)
    (s e : Int) (ad fx : Bool)
    (h : normalize_event_to_jst (some ds) de = some (s, e, ad, fx)) :
    s < e ∧
    (fx = true ↔ (de = none ∨ ∃ dv, de = some dv ∧ to_jst dv ≤ s)) ∧
    (fx = true → e = s + (if ad = true then 1440 else 60)) := by
  cases de with
  | none =>
    simp only [normalize_event_to_jst, Option.some.injEq, Prod.mk.injEq] at h
    obtain ⟨h1, h2, h3, h4⟩ := h
    subst h1 h2 h3 h4
    refine ⟨by split <;> omega, by simp, by simp⟩
  | some dv =>
    simp only [normalize_event_to_jst] at h
    split at h
    · next hle =>
      simp only [Option.some.injEq, Prod.mk.injEq] at h
      obtain ⟨h1, h2, h3, h4⟩ := h
      subst h1 h2 h3 h4
      refine ⟨by split <;> omega, ?_, by simp⟩
      simp only [true_iff]
      exact Or.inr ⟨dv, rfl, hle⟩
    · next hgt =>
      simp only [Option.some.injEq, Prod.mk.injEq] at h
      obtain ⟨h1, h2, h3, h4⟩ := h
      subst h1 h2 h3 h4
      refine ⟨by omega, ?_, by simp⟩
      constructor
      · intro hf
        exact absurd hf (by simp)
      · rintro (hnone | ⟨dw, hdw, hle⟩)
        · exact absurd hnone (by simp)
        · cases hdw
          exact absurd hle hgt

theorem normalize_repairs_interval_witness :
    (0 : Int) < 1440 ∧
    (true = true ↔ ((none : Option DTValue) = none ∨
      ∃ dv, (none : Option DTValue) = some dv ∧ to_jst dv ≤ (0 : Int))) ∧
    (true = true → (1440 : Int) = 0 + (if true = true then 1440 else 60)) :=
  normalize_repairs_interval (.dateOnly 0) none 0 1440 true true (by decide)

/-! ## Claim C2: half-open overlap predicate and event dropping -/

/-- C2: the overlap predicate holds iff `start < window.end` and
`end > window.start` (half-open convention); an interval ending exactly at
the window start, or starting exactly at the window end, does not overlap
and the event contributes no item. -/
theorem overlap_halfopen :
    (∀ s e ws we : Int, overlaps_today_jst s e ws we = true ↔ (s < we ∧ ws < e)) ∧
    (∀ (cfg : Config) (ws we : Int) (ev : VEvent) (s : Int) (ad fx : Bool),
      normalize_event_to_jst ev.dtstart ev.dtend = some (s, ws, ad, fx) →
      item_of cfg ws we ev = none) ∧
    (∀ (cfg : Config) (ws we : Int) (ev : VEvent) (e : Int) (ad fx : Bool),
      normalize_event_to_jst ev.dtstart ev.dtend = some (we, e, ad, fx) →
      item_of cfg ws we ev = none) := by
  refine ⟨fun s e ws we => by simp [overlaps_today_jst], ?_, ?_⟩
  · intro cfg ws we ev s ad fx h
    unfold item_of
    rw [h]
    simp [overlaps_today_jst]
  · intro cfg ws we ev e ad fx h
    unfold item_of
    rw [h]
    simp [overlaps_today_jst]

theorem overlap_halfopen_witness :
    item_of ⟨true, true, 180⟩ 0 1440
      ⟨some (.naive (-60)), some (.naive 0), none, none, none, none⟩ = none ∧
    item_of ⟨true, true, 180⟩ 0 1440
      ⟨some (.naive 1440), some (.naive 1500), none, none, none, none⟩ = none :=
  ⟨overlap_halfopen.2.1 ⟨true, true, 180⟩ 0 1440
      ⟨some (.naive (-60)), some (.naive 0), none, none, none, none⟩ (-60) false false
      (by decide),
   overlap_halfopen.2.2 ⟨true, true, 180⟩ 0 1440
      ⟨some (.naive 1440), some (.naive 1500), none, none, none, none⟩ 1500 false false
      (by decide)⟩

/-! ## Claim C5: per-message length cap in dispatch -/

/-- C5: a message of at most 5000 characters is dispatched unchanged; a
longer one is truncated so that, with the fixed omitted-suffix appended,
it fits 4800 characters. -/
theorem clip_message_cap (m : Str) :
    (m.length ≤ 5000 → clip_message m = m) ∧
    (5000 < m.length → (clip_message m).length = 4800) := by
  constructor
  · intro h
    simp [clip_message, h]
  · intro h
    have hn : ¬ m.length ≤ 5000 := by omega
    have h7 : omitSfx.length = 7 := by decide
    simp [clip_message, hn, h7]
    omega

theorem clip_message_cap_witness :
    clip_message (List.replicate 5000 'x') = List.replicate 5000 'x' ∧
    (clip_message (List.replicate 5001 'x')).length = 4800 :=
  ⟨(clip_message_cap (List.replicate 5000 'x')).1
      (by simp only [List.length_replicate]; omega),
   (clip_message_cap (List.replicate 5001 'x')).2
      (by simp only [List.length_replicate]; omega)⟩

/-! ## Claim C8: timezone coercion -/

/-- C8: coercion is total over the three time shapes: a bare date becomes
JST midnight of that day; a naive timestamp keeps its wall clock and is
tagged JST (identical to tagging with the JST offset, and different from a
UTC reading); a zoned timestamp is converted preserving the instant. -/
theorem to_jst_coercion :
    (∀ d : Int, to_jst (.dateOnly d) = d * 1440) ∧
    (∀ w : Int, to_jst (.naive w) = w ∧
      to_jst (.naive w) = to_jst (.zoned w jstOffset) ∧
      to_jst (.naive w) ≠ to_jst (.zoned w 0)) ∧
    (∀ w off : Int, jstInstant (to_jst (.zoned w off)) = zonedInstant w off) := by
  refine ⟨fun d => rfl, fun w => ⟨rfl, ?_, ?_⟩, fun w off => ?_⟩
  · simp [to_jst, jstOffset]
  · simp only [to_jst, jstOffset, ne_eq]
    omega
  · simp only [jstInstant, to_jst, zonedInstant, jstOffset]
    ring

theorem to_jst_coercion_witness :
    to_jst (.naive 0) ≠ to_jst (.zoned 0 0) :=
  (to_jst_coercion.2.1 0).2.2

/-! ## Claim C6: memo truncation laws -/

theorem shape_core_nil (ad : Bool) : shape_core [] ad = [] := rfl

/-- C6: with a positive maximum the shaped memo is at most `max` plus the
ellipsis length; a shaped text already within the maximum is returned
untruncated; a non-positive maximum disables truncation. -/
theorem shape_memo_trunc_laws (desc : Str) (maxLen : Int) (ad : Bool) :
    (0 < maxLen →
      ((shape_memo desc maxLen ad).length : Int) ≤ maxLen + (ellipsisSfx.length : Int)) ∧
    (((shape_core desc ad).length : Int) ≤ maxLen →
      shape_memo desc maxLen ad = shape_core desc ad) ∧
    (maxLen ≤ 0 → shape_memo desc maxLen ad = shape_core desc ad) := by
  have hsfx : ellipsisSfx.length = 7 := by decide
  refine ⟨?_, ?_, ?_⟩
  · intro hpos
    by_cases hd : desc = []
    · subst hd
      have hz : shape_memo [] maxLen ad = [] := by simp [shape_memo]
      rw [hz]
      simp only [List.length_nil, hsfx]
      push_cast
      omega
    · simp only [shape_memo, if_neg hd]
      split
      · next hcond =>
        simp only [List.length_append, List.length_take, hsfx]
        have htn : (maxLen.toNat : Int) = maxLen := Int.toNat_of_nonneg (le_of_lt hpos)
        push_cast
        omega
      · next hcond =>
        rw [not_and_or] at hcond
        rcases hcond with hc | hc
        · exact absurd hpos hc
        · rw [not_lt] at hc
          omega
  · intro hle
    by_cases hd : desc = []
    · subst hd
      simp [shape_memo, shape_core_nil]
    · simp only [shape_memo, if_neg hd]
      rw [if_neg]
      rintro ⟨h1, h2⟩
      omega
  · intro hnp
    by_cases hd : desc = []
    · subst hd
      simp [shape_memo, shape_core_nil]
    · simp only [shape_memo, if_neg hd]
      rw [if_neg]
      rintro ⟨h1, h2⟩
      omega

theorem shape_memo_trunc_laws_witness :
    ((shape_memo ("abcdefgh".toList) 3 false).length : Int) ≤ 3 + (ellipsisSfx.length : Int) ∧
    shape_memo ("ab cd".toList) 10 false = shape_core ("ab cd".toList) false ∧
    shape_memo ("ab cd".toList) (-1) false = shape_core ("ab cd".toList) false :=
  ⟨(shape_memo_trunc_laws ("abcdefgh".toList) 3 false).1 (by decide),
   (shape_memo_trunc_laws ("ab cd".toList) 10 false).2.1 (by decide),
   (shape_memo_trunc_laws ("ab cd".toList) (-1) false).2.2 (by decide)⟩

/-! ## Claim C9: deterministic digest ordering -/

/-- C9: the item list is sorted by the `(clippedStart, title)` key
ascending (a permutation of the input, totally ordered by the key, ties on
the start broken lexicographically by the title); in particular two items
at 09:00 (= minute 540) titled "B" and "A" are reordered A before B. -/
theorem digest_order_deterministic :
    (∀ items : List (Int × Str × Str),
      (sort_items items).Perm items ∧ List.Sorted keyLe (sort_items items)) ∧
    sort_items
        [(540, ("B".toList), ("・09:00\nB".toList)),
         (540, ("A".toList), ("・09:00\nA".toList))]
      = [(540, ("A".toList), ("・09:00\nA".toList)),
         (540, ("B".toList), ("・09:00\nB".toList))] :=
  ⟨fun items =>
    ⟨List.perm_insertionSort keyLe items, List.sorted_insertionSort keyLe items⟩,
   by decide⟩

/-! ## Claim C10: placeholder title for untitled events -/

theorem digCh_mem_digits (n : Nat) : digCh n ∈ ("0123456789".toList) := by
  unfold digCh
  split <;> decide

theorem digCh_ne_nl (n : Nat) : ¬ digCh n = '\n' := by
  intro he
  have h := digCh_mem_digits n
  rw [he] at h
  exact absurd h (by decide)

theorem nl_not_in_fmtHM (w : Int) : '\n' ∉ fmtHM w := by
  simp only [fmtHM, twoDig, List.cons_append, List.nil_append, List.mem_cons,
    List.not_mem_nil, or_false]
  rintro (h | h | h | h | h)
  · exact digCh_ne_nl _ h.symm
  · exact digCh_ne_nl _ h.symm
  · exact absurd h (by decide)
  · exact digCh_ne_nl _ h.symm
  · exact digCh_ne_nl _ h.symm

theorem splitNl_joinNl_second (l0 t : Str) (rest : List Str)
    (h0 : '\n' ∉ l0) (ht : '\n' ∉ t) :
    (splitNl (joinNl (l0 :: t :: rest)))[1]? = some t := by
  rw [joinNl_cons₂, splitNl_append_cons _ _ h0]
  cases rest with
  | nil =>
    simp [joinNl, splitNl_no_nl _ ht]
  | cons r rs =>
    rw [joinNl_cons₂, splitNl_append_cons _ _ ht]
    simp

/-- C10: an event whose record has no summary gets the fixed placeholder
title `(無題)`, which is both the sort-key title of the produced item and
the second line of its message. -/
theorem untitled_placeholder (cfg : Config) (ws we : Int) (ev : VEvent)
    (it : Int × Str × Str) (hsum : ev.summary = none)
    (h : item_of cfg ws we ev = some it) :
    it.2.1 = placeholderTitle ∧ (splitNl it.2.2)[1]? = some placeholderTitle := by
  unfold item_of at h
  cases hn : normalize_event_to_jst ev.dtstart ev.dtend with
  | none =>
    rw [hn] at h
    exact absurd h (by simp)
  | some r =>
    obtain ⟨s, e, allday, fx⟩ := r
    rw [hn] at h
    dsimp only at h
    by_cases hov : overlaps_today_jst s e ws we = true
    · rw [if_pos hov] at h
      simp only [Option.some.injEq] at h
      subst h
      rw [hsum]
      have hwhen : '\n' ∉ ('・' ::
          (if allday = true then ("終日".toList) else fmtHM (if ws ≤ s then s else ws))) := by
        intro hmem
        rcases List.mem_cons.mp hmem with hc | hc
        · exact absurd hc (by decide)
        · split at hc
          · exact absurd hc (by decide)
          · exact nl_not_in_fmtHM _ hc
      refine ⟨rfl, ?_⟩
      exact splitNl_joinNl_second _ _ _ hwhen (by decide)
    · rw [if_neg hov] at h
      exact absurd h (by simp)

theorem untitled_placeholder_witness :
    ((600 : Int), placeholderTitle, (("・10:00\n(無題)").toList)).2.1 = placeholderTitle ∧
    (splitNl ((600 : Int), placeholderTitle, (("・10:00\n(無題)").toList)).2.2)[1]?
      = some placeholderTitle :=
  untitled_placeholder ⟨true, true, 180⟩ 0 1440
    ⟨some (.naive 600), some (.naive 660), none, none, none, none⟩
    (600, placeholderTitle, (("・10:00\n(無題)").toList)) rfl (by decide)

/-! ## Claim C4: dispatch failure accounting -/

theorem send_event_loop_spec (send : Str → SendOut) (titles : Option (List Str)) :
    ∀ (msgs : List Str) (idx : Nat),
      send_event_loop send titles idx msgs =
        (msgs.length,
         msgs.countP (fun m => !(send (clip_message m)).ok),
         (List.enumFrom idx msgs).filterMap (fun p =>
           if (send (clip_message p.2)).ok then none
           else some (title_hint titles p.1, (send (clip_message p.2)).status,
             (send (clip_message p.2)).summary))) := by
  intro msgs
  induction msgs with
  | nil => intro idx; rfl
  | cons m ms ih =>
    intro idx
    simp only [send_event_loop, ih (idx + 1), List.enumFrom, List.filterMap_cons,
      List.countP_cons, List.length_cons]
    by_cases hok : (send (clip_message m)).ok = true
    · simp [hok, Nat.add_comm]
    · simp only [Bool.not_eq_true] at hok
      simp [hok, Nat.add_comm]

/-- C4 (amended): the header and every event message are sent
sequentially (`1 + n` sends), the run succeeds iff zero sends failed, a
failed send never halts the loop (errors are counted over all sends), and
each failed *event* send contributes one failure diagnostic carrying its
title hint and transport summary — a failed header send is tallied in the
error count but produces no diagnostic. -/
theorem dispatch_accounting (send : Str → SendOut) (header : Str)
    (msgs : List Str) (titles : Option (List Str)) :
    (send_messages send header msgs titles).2.1 = 1 + msgs.length ∧
    ((send_messages send header msgs titles).1 = true ↔
      (send_messages send header msgs titles).2.2.1 = 0) ∧
    (send_messages send header msgs titles).2.2.1 =
      (if (send (clip_message header)).ok then 0 else 1)
        + msgs.countP (fun m => !(send (clip_message m)).ok) ∧
    (send_messages send header msgs titles).2.2.2 =
      msgs.enum.filterMap (fun p =>
        if (send (clip_message p.2)).ok then none
        else some (title_hint titles p.1, (send (clip_message p.2)).status,
          (send (clip_message p.2)).summary)) := by
  unfold send_messages
  rw [send_event_loop_spec]
  refine ⟨rfl, by simp, rfl, ?_⟩
  rw [List.enum_eq_enumFrom]

/-- C4, the claim as stated is false on the code: with a failing header
send and two succeeding event sends there are 3 sends and overall failure,
but the failure-diagnostic list is empty — not of length one, because
header failures are never logged with a diagnostic. -/
theorem dispatch_header_unlogged_cex :
    send_messages
        (fun t => if t = ("h".toList) then ⟨500, false, []⟩ else ⟨200, true, []⟩)
        ("h".toList) [("a".toList), ("b".toList)] none
      = (false, 3, 1, []) := rfl

/-! ## Claim C7: meeting-link extraction -/

theorem extract_loop_eq_findSome (ps : List (Str → Option Str)) (corpus : Str) :
    extract_loop ps corpus = ps.findSome? (fun p => searchStr p corpus) := by
  induction ps with
  | nil => rfl
  | cons p ps ih =>
    cases h : searchStr p corpus <;>
      simp [extract_loop, List.findSome?_cons, h, ih]

/-- C7 (amended): the extracted link searches the known meeting-link
patterns in priority order over the concatenation of the explicit URL
field, the description **and the location**; the first pattern with a
match wins, otherwise the first bare `http(s)://` token, otherwise the
empty string. -/
theorem meeting_link_priority (desc loc url : Str) :
    event_link desc loc url = specLink (corpusOf url (desc ++ '\n' :: loc)) ∧
    (∀ text, extract_meeting_link text url = specLink (corpusOf url text)) := by
  have hfun : ∀ text, extract_meeting_link text url = specLink (corpusOf url text) := by
    intro text
    unfold extract_meeting_link specLink
    dsimp only
    rw [extract_loop_eq_findSome]
    cases h1 : patList.findSome? (fun p => searchStr p (corpusOf url text)) with
    | some r => simp [h1, Option.or]
    | none =>
      cases h2 : searchStr matchFallbackAt (corpusOf url text) <;>
        simp [h1, h2, Option.or]
  exact ⟨hfun _, hfun⟩

/-- C7, the claim as stated is false on the code: searching only the URL
field and the description (as the claim words it) yields no link for an
event whose only URL sits in the location field, yet the code extracts
that link from the location. -/
theorem meeting_link_location_cex :
    event_link [] (("https://zoom.us/j/1").toList) [] = ("https://zoom.us/j/1").toList ∧
    claimedLink [] [] = [] ∧
    ¬ event_link [] (("https://zoom.us/j/1").toList) [] = claimedLink [] [] := by
  refine ⟨by decide, by decide, by decide⟩

/-! ## Claim C3: idempotence of memo shaping

The development below establishes that a non-all-day shaped memo is a
fixpoint of the shaping pipeline, while the all-day marker removal (which
only inspects the first three raw lines) can re-trigger on shaped output
and breaks idempotence for all-day-like events. -/

theorem lstrip_eq_self (l : Str) (h : ∀ c, l.head? = some c → pySpace c = false) :
    lstrip l = l := by
  cases l with
  | nil => rfl
  | cons c t =>
    have := h c rfl
    simp [lstrip, List.dropWhile_cons, this]

theorem lstrip_head_char (l : Str) :
    ∀ c, (lstrip l).head? = some c → pySpace c = false := by
  induction l with
  | nil => intro c hc; simp [lstrip] at hc
  | cons a t ih =>
    intro c hc
    cases ha : pySpace a with
    | true =>
      rw [show lstrip (a :: t) = lstrip t by simp [lstrip, List.dropWhile_cons, ha]] at hc
      exact ih c hc
    | false =>
      rw [show lstrip (a :: t) = a :: t by simp [lstrip, List.dropWhile_cons, ha]] at hc
      simp only [List.head?_cons, Option.some.injEq] at hc
      subst hc
      exact ha

theorem rstrip_eq_self (l : Str) (h : ∀ c, l.getLast? = some c → pySpace c = false) :
    rstrip l = l := by
  unfold rstrip
  rw [lstrip_eq_self l.reverse (by
    intro c hc
    rw [List.head?_reverse] at hc
    exact h c hc)]
  exact List.reverse_reverse l

theorem rstrip_last_char (l : Str) :
    ∀ c, (rstrip l).getLast? = some c → pySpace c = false := by
  intro c hc
  unfold rstrip at hc
  rw [List.getLast?_reverse] at hc
  exact lstrip_head_char _ c hc

theorem rstrip_head_sub (l : Str) :
    ∀ c, (rstrip l).head? = some c → l.head? = some c := by
  intro c hc
  unfold rstrip lstrip at hc
  have hl : l = (l.reverse.dropWhile pySpace).reverse ++
      (l.reverse.takeWhile pySpace).reverse := by
    have h1 := congrArg List.reverse (List.takeWhile_append_dropWhile pySpace l.reverse)
    rw [List.reverse_append, List.reverse_reverse] at h1
    exact h1.symm
  rw [hl]
  cases hx : (l.reverse.dropWhile pySpace).reverse with
  | nil => rw [hx] at hc; simp at hc
  | cons a t =>
    rw [hx] at hc
    simp only [List.head?_cons, Option.some.injEq] at hc
    subst hc
    simp

theorem stripWS_eq_self (l : Str)
    (h1 : ∀ c, l.head? = some c → pySpace c = false)
    (h2 : ∀ c, l.getLast? = some c → pySpace c = false) :
    stripWS l = l := by
  unfold stripWS
  rw [lstrip_eq_self l h1, rstrip_eq_self l h2]

theorem stripWS_head_char (l : Str) :
    ∀ c, (stripWS l).head? = some c → pySpace c = false := by
  intro c hc
  exact lstrip_head_char l c (rstrip_head_sub _ c hc)

theorem stripWS_last_char (l : Str) :
    ∀ c, (stripWS l).getLast? = some c → pySpace c = false :=
  fun c hc => rstrip_last_char _ c hc

theorem mem_lstrip (l : Str) (c : Char) (h : c ∈ lstrip l) : c ∈ l := by
  unfold lstrip at h
  have : (l.dropWhile pySpace).Sublist l := List.dropWhile_sublist _
  exact this.mem h

theorem mem_stripWS (l : Str) (c : Char) (h : c ∈ stripWS l) : c ∈ l := by
  unfold stripWS rstrip at h
  rw [List.mem_reverse] at h
  have h2 := mem_lstrip _ c h
  rw [List.mem_reverse] at h2
  exact mem_lstrip _ c h2

theorem flushRun_cases (run : Str) :
    flushRun run = [] ∨ (∃ c, flushRun run = [c] ∧ (run = [c] ∨ c = ' ')) := by
  match run with
  | [] => exact Or.inl rfl
  | [c] => exact Or.inr ⟨c, rfl, Or.inl rfl⟩
  | a :: b :: t => exact Or.inr ⟨' ', rfl, Or.inr rfl⟩

theorem collapseGo_ne_nil (l run : Str) (h : run ≠ [] ∨ l ≠ []) :
    collapseGo run l ≠ [] := by
  induction l generalizing run with
  | nil =>
    rcases h with h | h
    · simp only [collapseGo]
      match run, h with
      | [c], _ => simp [flushRun]
      | a :: b :: t, _ => simp [flushRun]
    · exact absurd rfl h
  | cons c t ih =>
    simp only [collapseGo]
    split
    · exact ih (run ++ [c]) (Or.inl (by simp))
    · rcases flushRun_cases run with hf | ⟨d, hf, _⟩ <;> simp [hf]

theorem mem_collapseGo (l : Str) :
    ∀ (run : Str) (c : Char), c ∈ collapseGo run l → c ∈ run ∨ c ∈ l ∨ c = ' ' := by
  induction l with
  | nil =>
    intro run c hc
    simp only [collapseGo] at hc
    rcases flushRun_cases run with hf | ⟨d, hf, hd⟩
    · rw [hf] at hc; simp at hc
    · rw [hf] at hc
      simp only [List.mem_singleton] at hc
      subst hc
      rcases hd with hd | hd
      · exact Or.inl (by simp [hd])
      · exact Or.inr (Or.inr hd)
  | cons a t ih =>
    intro run c hc
    simp only [collapseGo] at hc
    split at hc
    · rcases ih (run ++ [a]) c hc with h | h | h
      · rcases List.mem_append.mp h with h | h
        · exact Or.inl h
        · simp only [List.mem_singleton] at h
          exact Or.inr (Or.inl (by simp [h]))
      · exact Or.inr (Or.inl (List.mem_cons_of_mem _ h))
      · exact Or.inr (Or.inr h)
    · rcases List.mem_append.mp hc with h | h
      · rcases flushRun_cases run with hf | ⟨d, hf, hd⟩
        · rw [hf] at h; simp at h
        · rw [hf] at h
          simp only [List.mem_singleton] at h
          subst h
          rcases hd with hd | hd
          · exact Or.inl (by simp [hd])
          · exact Or.inr (Or.inr hd)
      · rcases List.mem_cons.mp h with h | h
        · exact Or.inr (Or.inl (by simp [h]))
        · rcases ih [] c h with h' | h' | h'
          · simp at h'
          · exact Or.inr (Or.inl (List.mem_cons_of_mem _ h'))
          · exact Or.inr (Or.inr h')

theorem collapseGo_id (l : Str) : ∀ run : Str, noTwoSp l →
    (run = [] ∨ (∃ c, run = [c] ∧ pySpace c = true ∧
      ∀ d, l.head? = some d → pySpace d = false)) →
    collapseGo run l = run ++ l := by
  induction l with
  | nil =>
    intro run _ hrun
    rcases hrun with rfl | ⟨c, rfl, _, _⟩
    · rfl
    · rfl
  | cons a t ih =>
    intro run hchain hrun
    have hpair := (List.chain'_cons'.mp hchain).1
    have htail : noTwoSp t := (List.chain'_cons'.mp hchain).2
    cases ha : pySpace a with
    | true =>
      have hrun0 : run = [] := by
        rcases hrun with rfl | ⟨c, rfl, _, hhd⟩
        · rfl
        · exact absurd (hhd a rfl) (by simp [ha])
      subst hrun0
      rw [show collapseGo [] (a :: t) = collapseGo [a] t by simp [collapseGo, ha]]
      rw [ih [a] htail (Or.inr ⟨a, rfl, ha, ?_⟩)]
      · simp
      · intro d hd
        have := hpair d hd
        rw [ha] at this
        simpa using this
    | false =>
      rw [show collapseGo run (a :: t) = flushRun run ++ a :: collapseGo [] t by
        simp [collapseGo, ha]]
      rw [ih [] htail (Or.inl rfl)]
      rcases hrun with rfl | ⟨c, rfl, _, _⟩ <;> simp [flushRun]

theorem collapseWS_id (l : Str) (h : noTwoSp l) : collapseWS l = l := by
  have := collapseGo_id l [] h (Or.inl rfl)
  simpa [collapseWS] using this

theorem collapseGo_noTwoSp (l : Str) : ∀ run : Str, noTwoSp (collapseGo run l) := by
  induction l with
  | nil =>
    intro run
    simp only [collapseGo]
    rcases flushRun_cases run with hf | ⟨c, hf, _⟩ <;> simp [noTwoSp, hf]
  | cons a t ih =>
    intro run
    simp only [collapseGo]
    split
    · exact ih (run ++ [a])
    · next ha =>
      have ha' : pySpace a = false := by simpa using ha
      refine List.Chain'.append ?_ ?_ ?_
      · rcases flushRun_cases run with hf | ⟨c, hf, _⟩ <;> simp [noTwoSp, hf]
      · rw [List.chain'_cons']
        refine ⟨fun y _ => by simp [ha'], ih []⟩
      · intro x _ y hy
        simp only [List.head?_cons, Option.mem_def, Option.some.injEq] at hy
        subst hy
        simp [ha']

theorem collapseGo_last_char (l : Str) : ∀ run : Str, l ≠ [] →
    (∀ c, l.getLast? = some c → pySpace c = false) →
    ∀ c, (collapseGo run l).getLast? = some c → pySpace c = false := by
  induction l with
  | nil => intro run h; exact absurd rfl h
  | cons a t ih =>
    intro run _ hlast c hc
    cases t with
    | nil =>
      have ha : pySpace a = false := hlast a rfl
      rw [show collapseGo run [a] = flushRun run ++ a :: collapseGo [] [] by
        simp [collapseGo, ha]] at hc
      rw [show collapseGo ([] : Str) [] = [] from rfl] at hc
      rw [List.getLast?_concat] at hc
      cases hc
      exact ha
    | cons b t' =>
      have hlast' : ∀ d, (b :: t').getLast? = some d → pySpace d = false := by
        intro d hd
        exact hlast d (by rwa [List.getLast?_cons_cons])
      cases ha : pySpace a with
      | true =>
        rw [show collapseGo run (a :: b :: t') = collapseGo (run ++ [a]) (b :: t') by
          simp [collapseGo, ha]] at hc
        exact ih (run ++ [a]) (by simp) hlast' c hc
      | false =>
        rw [show collapseGo run (a :: b :: t') =
            flushRun run ++ a :: collapseGo [] (b :: t') by simp [collapseGo, ha]] at hc
        have hne : collapseGo ([] : Str) (b :: t') ≠ [] :=
          collapseGo_ne_nil _ _ (Or.inr (by simp))
        rw [List.getLast?_append] at hc
        have h2 : (a :: collapseGo ([] : Str) (b :: t')).getLast? = some c := by
          cases hx : (a :: collapseGo ([] : Str) (b :: t')).getLast? with
          | none =>
            rw [List.getLast?_eq_none_iff] at hx
            exact absurd hx (by simp)
          | some d =>
            rw [hx] at hc
            simp only [Option.or] at hc
            exact hc
        have h3 : (collapseGo ([] : Str) (b :: t')).getLast? = some c := by
          rcases hy : collapseGo ([] : Str) (b :: t') with _ | ⟨z, zs⟩
          · exact absurd hy hne
          · rw [hy, List.getLast?_cons_cons] at h2
            exact h2
        exact ih [] (by simp) hlast' c h3

theorem lineShape_nice (l : Str) : NiceLn (lineShape l) := by
  unfold lineShape
  cases hs : stripWS l with
  | nil =>
    rw [show collapseWS [] = [] from rfl]
    exact ⟨List.chain'_nil, by intro c hc; simp at hc, by intro c hc; simp at hc⟩
  | cons c s =>
    have hc : pySpace c = false := stripWS_head_char l c (by rw [hs]; rfl)
    have hcol : collapseWS (c :: s) = c :: collapseGo [] s := by
      simp [collapseWS, collapseGo, hc, flushRun]
    refine ⟨collapseGo_noTwoSp _ _, ?_, ?_⟩
    · intro d hd
      rw [hcol] at hd
      simp only [List.head?_cons, Option.some.injEq] at hd
      subst hd
      exact hc
    · intro d hd
      refine collapseGo_last_char (c :: s) [] (by simp) ?_ d hd
      intro z hz
      exact stripWS_last_char l z (by rw [hs]; exact hz)

theorem lineShape_fix (l : Str) (h : NiceLn l) : lineShape l = l := by
  unfold lineShape
  rw [stripWS_eq_self l h.2.1 h.2.2, collapseWS_id l h.1]

theorem noTwoSp_of_nonspace (l : Str) (h : ∀ c ∈ l, pySpace c = false) : noTwoSp l := by
  induction l with
  | nil => exact List.chain'_nil
  | cons a t ih =>
    rw [noTwoSp, List.chain'_cons']
    refine ⟨fun y _ => by simp [h a (by simp)], ih (fun c hc => h c (List.mem_cons_of_mem _ hc))⟩

theorem NiceLn_of_nonspace (l : Str) (h : ∀ c ∈ l, pySpace c = false) : NiceLn l := by
  refine ⟨noTwoSp_of_nonspace l h, ?_, ?_⟩
  · intro c hc
    refine h c ?_
    cases l with
    | nil => simp at hc
    | cons a t =>
      simp only [List.head?_cons, Option.some.injEq] at hc
      subst hc
      exact List.mem_cons_self _ _
  · intro c hc
    exact h c (List.mem_of_mem_getLast? (by rw [hc]; rfl))

theorem nl_not_in_lineShape (l : Str) (h : '\n' ∉ l) : '\n' ∉ lineShape l := by
  intro hmem
  unfold lineShape at hmem
  rcases mem_collapseGo _ _ _ hmem with h1 | h1 | h1
  · simp at h1
  · exact h (mem_stripWS l _ h1)
  · exact absurd h1 (by decide)

theorem isLabelLn_nil : isLabelLn ([] : Str) = false := by decide

theorem shape_lines_cons (ad : Bool) (idx : Nat) (prev : Bool) (blanks : Nat)
    (ln : Str) (rest : List Str) :
    shape_lines ad idx prev blanks (ln :: rest) =
      if ad && decide (idx < 3) && isMarkerLn ln then
        shape_lines ad (idx + 1) prev blanks rest
      else if isLabelLn ln && prev then
        shape_lines ad (idx + 1) prev blanks rest
      else if ln = [] then
        (if blanks + 1 > 1 then shape_lines ad (idx + 1) (isLabelLn ln) (blanks + 1) rest
         else ln :: shape_lines ad (idx + 1) (isLabelLn ln) (blanks + 1) rest)
      else ln :: shape_lines ad (idx + 1) (isLabelLn ln) 0 rest := rfl

theorem shape_lines_id (ls : List Str) : ∀ (idx : Nat) (prev : Bool) (blanks : Nat),
    chainBlank ls → chainLabel ls →
    (prev = true → ∀ x, ls.head? = some x → isLabelLn x = false) →
    (blanks ≠ 0 → ∀ x, ls.head? = some x → x ≠ []) →
    shape_lines false idx prev blanks ls = ls := by
  induction ls with
  | nil => intro idx prev blanks _ _ _ _; rfl
  | cons h t ih =>
    intro idx prev blanks hcb hcl hprev hblk
    have hcb' : chainBlank t := (List.chain'_cons'.mp hcb).2
    have hcl' : chainLabel t := (List.chain'_cons'.mp hcl).2
    rw [shape_lines_cons]
    rw [if_neg (by simp)]
    rw [if_neg (c := (isLabelLn h && prev) = true) (by
      intro hc
      rcases Bool.and_eq_true_iff.mp hc with ⟨h1, h2⟩
      exact absurd h1 (by rw [hprev h2 h rfl]; simp))]
    by_cases ch : h = []
    · rw [if_pos ch]
      subst ch
      have hb0 : blanks = 0 := by
        by_contra hb
        exact (hblk hb [] rfl) rfl
      subst hb0
      rw [if_neg (by omega)]
      congr 1
      refine ih (idx + 1) _ _ hcb' hcl' ?_ ?_
      · intro hp
        rw [isLabelLn_nil] at hp
        exact absurd hp (by simp)
      · intro _ x hx hxe
        subst hxe
        exact ((List.chain'_cons'.mp hcb).1 [] hx) ⟨rfl, rfl⟩
    · rw [if_neg ch]
      congr 1
      refine ih (idx + 1) _ _ hcb' hcl' ?_ ?_
      · intro hp x hx
        cases hlx : isLabelLn x with
        | false => rfl
        | true =>
          exact absurd ⟨hp, hlx⟩ ((List.chain'_cons'.mp hcl).1 x hx)
      · intro hb
        exact absurd rfl hb

theorem shape_lines_inv (ls : List Str) : ∀ (ad : Bool) (idx : Nat) (prev : Bool) (blanks : Nat),
    (prev = true → blanks = 0) →
    (shape_lines ad idx prev blanks ls).Sublist ls ∧
    chainBlank (shape_lines ad idx prev blanks ls) ∧
    chainLabel (shape_lines ad idx prev blanks ls) ∧
    (prev = true → ∀ x, (shape_lines ad idx prev blanks ls).head? = some x →
      isLabelLn x = false) ∧
    (blanks ≠ 0 → ∀ x, (shape_lines ad idx prev blanks ls).head? = some x → x ≠ []) := by
  induction ls with
  | nil =>
    intro ad idx prev blanks _
    refine ⟨List.Sublist.refl _, List.chain'_nil, List.chain'_nil, ?_, ?_⟩ <;>
      · intro _ x hx
        simp [shape_lines] at hx
  | cons h t ih =>
    intro ad idx prev blanks hpb
    rw [shape_lines_cons]
    by_cases c1 : (ad && decide (idx < 3) && isMarkerLn h) = true
    · rw [if_pos c1]
      obtain ⟨s1, s2, s3, s4, s5⟩ := ih ad (idx + 1) prev blanks hpb
      exact ⟨s1.cons _, s2, s3, s4, s5⟩
    · rw [if_neg c1]
      by_cases c2 : (isLabelLn h && prev) = true
      · rw [if_pos c2]
        obtain ⟨s1, s2, s3, s4, s5⟩ := ih ad (idx + 1) prev blanks hpb
        exact ⟨s1.cons _, s2, s3, s4, s5⟩
      · rw [if_neg c2]
        by_cases ch : h = []
        · rw [if_pos ch]
          subst ch
          by_cases cb : blanks + 1 > 1
          · rw [if_pos cb]
            obtain ⟨s1, s2, s3, s4, s5⟩ :=
              ih ad (idx + 1) (isLabelLn []) (blanks + 1)
                (by rw [isLabelLn_nil]; simp)
            refine ⟨s1.cons _, s2, s3, ?_, ?_⟩
            · intro hp x hx
              have := hpb hp
              omega
            · intro _ x hx
              exact s5 (by omega) x hx
          · rw [if_neg cb]
            obtain ⟨s1, s2, s3, s4, s5⟩ :=
              ih ad (idx + 1) (isLabelLn []) (blanks + 1)
                (by rw [isLabelLn_nil]; simp)
            refine ⟨s1.cons₂ _, ?_, ?_, ?_, ?_⟩
            · rw [chainBlank, List.chain'_cons']
              refine ⟨?_, s2⟩
              intro y hy
              have hyne := s5 (by omega) y hy
              simp [hyne]
            · rw [chainLabel, List.chain'_cons']
              refine ⟨?_, s3⟩
              intro y _
              rw [isLabelLn_nil]
              simp
            · intro _ x hx
              simp only [List.head?_cons, Option.some.injEq] at hx
              subst hx
              exact isLabelLn_nil
            · intro hb x hx
              have : blanks = 0 := by omega
              exact absurd this (by simpa using hb)
        · rw [if_neg ch]
          obtain ⟨s1, s2, s3, s4, s5⟩ := ih ad (idx + 1) (isLabelLn h) 0 (fun _ => rfl)
          refine ⟨s1.cons₂ _, ?_, ?_, ?_, ?_⟩
          · rw [chainBlank, List.chain'_cons']
            refine ⟨fun y _ => by simp [ch], s2⟩
          · rw [chainLabel, List.chain'_cons']
            refine ⟨?_, s3⟩
            rintro y hy ⟨hl1, hl2⟩
            exact absurd hl2 (by rw [s4 hl1 y hy]; simp)
          · intro hp x hx
            simp only [List.head?_cons, Option.some.injEq] at hx
            subst hx
            cases hlh : isLabelLn h with
            | false => rfl
            | true =>
              exact absurd (show (isLabelLn h && prev) = true by rw [hlh, hp]; rfl) c2
          · intro _ x hx
            simp only [List.head?_cons, Option.some.injEq] at hx
            subst hx
            exact ch

theorem joinNl_head (h : Str) (t : List Str) (hne : h ≠ []) :
    (joinNl (h :: t)).head? = h.head? := by
  cases t with
  | nil => rfl
  | cons y ys =>
    cases h with
    | nil => exact absurd rfl hne
    | cons c cs => rfl

theorem joinNl_eq_nil_cases (ls : List Str) (h : joinNl ls = []) :
    ls = [] ∨ ls = [[]] := by
  match ls with
  | [] => exact Or.inl rfl
  | [x] => exact Or.inr (by rw [show joinNl [x] = x from rfl] at h; rw [h])
  | x :: y :: t =>
    rw [joinNl_cons₂] at h
    rcases List.append_eq_nil.mp h with ⟨_, h2⟩
    exact absurd h2 (by simp)

theorem splitNl_joinNl (ls : List Str) (h1 : ls ≠ [])
    (h2 : ∀ l ∈ ls, '\n' ∉ l) : splitNl (joinNl ls) = ls := by
  induction ls with
  | nil => exact absurd rfl h1
  | cons x t ih =>
    cases t with
    | nil =>
      rw [show joinNl [x] = x from rfl]
      exact splitNl_no_nl x (h2 x (by simp))
    | cons y ys =>
      rw [joinNl_cons₂, splitNl_append_cons _ _ (h2 x (by simp))]
      rw [ih (by simp) (fun l hl => h2 l (List.mem_cons_of_mem _ hl))]

theorem splitlines_joinNl (ls : List Str) (h1 : ls ≠ [])
    (h2 : ∀ l ∈ ls, '\n' ∉ l) (h3 : ls.getLast? ≠ some []) :
    splitlines (joinNl ls) = ls := by
  have hjoin : joinNl ls ≠ [] := by
    intro hj
    rcases joinNl_eq_nil_cases ls hj with h | h
    · exact h1 h
    · rw [h] at h3
      exact h3 rfl
  unfold splitlines
  rw [if_neg hjoin, splitNl_joinNl ls h1 h2, if_neg h3]

theorem lstrip_joinNl (o : List Str) (hcb : chainBlank o)
    (hbd : ∀ l ∈ o, ∀ c, l.head? = some c → pySpace c = false) :
    lstrip (joinNl o) = joinNl (dropLeadBlank o) := by
  cases o with
  | nil => rfl
  | cons x t =>
    cases t with
    | nil =>
      cases x with
      | nil => rfl
      | cons c cs =>
        rw [show dropLeadBlank [c :: cs] = [c :: cs] from rfl]
        rw [show joinNl [c :: cs] = c :: cs from rfl]
        exact lstrip_eq_self _ (hbd (c :: cs) (by simp))
    | cons y ys =>
      cases x with
      | nil =>
        rw [joinNl_cons₂]
        rw [show dropLeadBlank ([] :: y :: ys) = y :: ys from rfl]
        rw [show ([] : Str) ++ '\n' :: joinNl (y :: ys) = '\n' :: joinNl (y :: ys) from rfl]
        rw [show lstrip ('\n' :: joinNl (y :: ys)) = lstrip (joinNl (y :: ys)) by
          simp only [lstrip, List.dropWhile_cons]
          rw [if_pos (by decide : pySpace '\n' = true)]]
        have hy : y ≠ [] := by
          intro hye
          exact ((List.chain'_cons'.mp hcb).1 y rfl) ⟨rfl, hye⟩
        refine lstrip_eq_self _ ?_
        intro c hc
        rw [joinNl_head y ys hy] at hc
        exact hbd y (by simp) c hc
      | cons c cs =>
        rw [show dropLeadBlank ((c :: cs) :: y :: ys) = (c :: cs) :: y :: ys from rfl]
        refine lstrip_eq_self _ ?_
        intro d hd
        rw [joinNl_head (c :: cs) (y :: ys) (by simp)] at hd
        exact hbd (c :: cs) (by simp) d hd

theorem joinNl_append_single (ls : List Str) (a : Str) (h : ls ≠ []) :
    joinNl (ls ++ [a]) = joinNl ls ++ '\n' :: a := by
  induction ls with
  | nil => exact absurd rfl h
  | cons x t ih =>
    cases t with
    | nil => rfl
    | cons y ys =>
      have h1 : (x :: y :: ys) ++ [a] = x :: ((y :: ys) ++ [a]) := rfl
      have h2 : (y :: ys) ++ [a] = y :: (ys ++ [a]) := rfl
      rw [h1, h2, joinNl_cons₂, ← h2, ih (by simp), joinNl_cons₂,
        List.append_assoc]
      rfl

theorem joinNl_reverse (o : List Str) :
    (joinNl o).reverse = joinNl ((o.map List.reverse).reverse) := by
  induction o with
  | nil => rfl
  | cons x t ih =>
    cases t with
    | nil => rfl
    | cons y ys =>
      rw [joinNl_cons₂, List.reverse_append, List.reverse_cons]
      rw [List.map_cons, List.reverse_cons, joinNl_append_single _ _ (by simp),
        ← ih, List.append_assoc]
      rfl

theorem dropLeadBlank_cons_ne (x : Str) (t : List Str) (h : x ≠ []) :
    dropLeadBlank (x :: t) = x :: t := by
  cases x with
  | nil => exact absurd rfl h
  | cons c cs => rfl

theorem dropLeadBlank_map_reverse (o : List Str) :
    dropLeadBlank (o.map List.reverse) = (dropLeadBlank o).map List.reverse := by
  cases o with
  | nil => rfl
  | cons x t =>
    by_cases hx : x = []
    · subst hx
      rfl
    · rw [List.map_cons, dropLeadBlank_cons_ne _ _ (by simpa using hx),
        dropLeadBlank_cons_ne _ _ hx, List.map_cons]

theorem mem_dropLeadBlank (o : List Str) (l : Str) (h : l ∈ dropLeadBlank o) : l ∈ o := by
  match o with
  | [] => exact h
  | [] :: t => exact List.mem_cons_of_mem _ h
  | (c :: cs) :: t => exact h

theorem chainBlank_dropLead (o : List Str) (h : chainBlank o) :
    chainBlank (dropLeadBlank o) := by
  match o with
  | [] => exact h
  | [] :: t => exact h.tail
  | (c :: cs) :: t => exact h

theorem chainLabel_dropLead (o : List Str) (h : chainLabel o) :
    chainLabel (dropLeadBlank o) := by
  match o with
  | [] => exact h
  | [] :: t => exact h.tail
  | (c :: cs) :: t => exact h

theorem dropLeadBlank_head_ne (o : List Str) (h : chainBlank o) :
    ¬ (dropLeadBlank o).head? = some [] := by
  match o with
  | [] => simp [dropLeadBlank]
  | [] :: t =>
    rw [show dropLeadBlank ([] :: t) = t from rfl]
    intro hy
    exact ((List.chain'_cons'.mp h).1 [] hy) ⟨rfl, rfl⟩
  | (c :: cs) :: t =>
    rw [dropLeadBlank_cons_ne _ _ (by simp)]
    simp

theorem chainBlank_reverse (o : List Str) (h : chainBlank o) : chainBlank o.reverse := by
  rw [chainBlank, List.chain'_reverse]
  refine h.imp ?_
  rintro a b hab ⟨h1, h2⟩
  exact hab ⟨h2, h1⟩

theorem chainLabel_reverse (o : List Str) (h : chainLabel o) : chainLabel o.reverse := by
  rw [chainLabel, List.chain'_reverse]
  refine h.imp ?_
  rintro a b hab ⟨h1, h2⟩
  exact hab ⟨h2, h1⟩

theorem rstrip_joinNl (m : List Str) (hcb : chainBlank m)
    (hbd : ∀ l ∈ m, ∀ c, l.getLast? = some c → pySpace c = false) :
    rstrip (joinNl m) = joinNl (dropTrailBlank m) := by
  unfold rstrip
  rw [joinNl_reverse m, ← List.map_reverse]
  rw [lstrip_joinNl (m.reverse.map List.reverse) ?_ ?_]
  · rw [dropLeadBlank_map_reverse, joinNl_reverse, List.map_map]
    rw [show List.reverse ∘ List.reverse = @id (List Char) from funext (by simp)]
    rw [List.map_id]
    rfl
  · rw [chainBlank, List.chain'_map]
    refine (chainBlank_reverse m hcb).imp ?_
    rintro a b hab ⟨h1, h2⟩
    exact hab ⟨List.reverse_eq_nil_iff.mp h1, List.reverse_eq_nil_iff.mp h2⟩
  · intro l hl c hc
    rcases List.mem_map.mp hl with ⟨x, hx, rfl⟩
    rw [List.head?_reverse] at hc
    exact hbd x (List.mem_reverse.mp hx) c hc

theorem stripWS_joinNl (o : List Str) (hcb : chainBlank o)
    (hhd : ∀ l ∈ o, ∀ c, l.head? = some c → pySpace c = false)
    (hlt : ∀ l ∈ o, ∀ c, l.getLast? = some c → pySpace c = false) :
    stripWS (joinNl o) = joinNl (trimB o) := by
  unfold stripWS trimB
  rw [lstrip_joinNl o hcb hhd]
  exact rstrip_joinNl (dropLeadBlank o) (chainBlank_dropLead o hcb)
    (fun l hl c hc => hlt l (mem_dropLeadBlank o l hl) c hc)

theorem dropLead_eq_or_tail (z : List Str) :
    dropLeadBlank z = z ∨ dropLeadBlank z = z.tail := by
  match z with
  | [] => exact Or.inl rfl
  | [] :: t => exact Or.inr rfl
  | (c :: cs) :: t => exact Or.inl rfl

theorem mem_dropTrailBlank (o : List Str) (l : Str) (h : l ∈ dropTrailBlank o) : l ∈ o := by
  unfold dropTrailBlank at h
  rw [List.mem_reverse] at h
  have := mem_dropLeadBlank _ _ h
  rwa [List.mem_reverse] at this

theorem chainBlank_dropTrail (o : List Str) (h : chainBlank o) :
    chainBlank (dropTrailBlank o) := by
  unfold dropTrailBlank
  exact chainBlank_reverse _ (chainBlank_dropLead _ (chainBlank_reverse _ h))

theorem chainLabel_dropTrail (o : List Str) (h : chainLabel o) :
    chainLabel (dropTrailBlank o) := by
  unfold dropTrailBlank
  exact chainLabel_reverse _ (chainLabel_dropLead _ (chainLabel_reverse _ h))

theorem dropTrail_getLast_ne (m : List Str) (h : chainBlank m) :
    ¬ (dropTrailBlank m).getLast? = some [] := by
  unfold dropTrailBlank
  rw [List.getLast?_reverse]
  exact dropLeadBlank_head_ne _ (chainBlank_reverse _ h)

theorem head?_dropTrail_sub (m : List Str) (x : Str)
    (h : (dropTrailBlank m).head? = some x) : m.head? = some x := by
  unfold dropTrailBlank at h
  rcases dropLead_eq_or_tail m.reverse with he | he
  · rw [he, List.reverse_reverse] at h
    exact h
  · rw [he] at h
    rw [List.head?_reverse] at h
    cases hm : m.reverse with
    | nil => rw [hm] at h; simp at h
    | cons a zs =>
      rw [hm] at h
      rw [show (a :: zs).tail = zs from rfl] at h
      have hzs : zs ≠ [] := by
        intro hz
        rw [hz] at h
        simp at h
      have h2 : (a :: zs).getLast? = some x := by
        cases zs with
        | nil => exact absurd rfl hzs
        | cons b bs => rw [List.getLast?_cons_cons]; exact h
      rw [← hm, List.getLast?_reverse] at h2
      exact h2

theorem trimB_head_ne (o : List Str) (h : chainBlank o) :
    ¬ (trimB o).head? = some [] := by
  intro hx
  exact dropLeadBlank_head_ne o h (head?_dropTrail_sub _ _ hx)

theorem trimB_getLast_ne (o : List Str) (h : chainBlank o) :
    ¬ (trimB o).getLast? = some [] :=
  dropTrail_getLast_ne _ (chainBlank_dropLead o h)

theorem mem_trimB (o : List Str) (l : Str) (h : l ∈ trimB o) : l ∈ o :=
  mem_dropLeadBlank o l (mem_dropTrailBlank _ l h)

theorem chainBlank_trimB (o : List Str) (h : chainBlank o) : chainBlank (trimB o) :=
  chainBlank_dropTrail _ (chainBlank_dropLead o h)

theorem chainLabel_trimB (o : List Str) (h : chainLabel o) : chainLabel (trimB o) :=
  chainLabel_dropTrail _ (chainLabel_dropLead o h)

theorem splitNl_mem_no_nl (s : Str) : ∀ l ∈ splitNl s, '\n' ∉ l := by
  induction s with
  | nil =>
    intro l hl
    rw [show splitNl [] = [[]] from rfl] at hl
    simp only [List.mem_singleton] at hl
    subst hl
    simp
  | cons c t ih =>
    intro l hl
    by_cases hc : c = '\n'
    · rw [show splitNl (c :: t) = [] :: splitNl t by simp [splitNl, hc]] at hl
      rcases List.mem_cons.mp hl with rfl | hl
      · simp
      · exact ih l hl
    · rw [show splitNl (c :: t) =
          (match splitNl t with
           | l :: ls => (c :: l) :: ls
           | [] => [[c]]) by simp [splitNl, hc]] at hl
      cases hsp : splitNl t with
      | nil => exact absurd hsp (splitNl_ne_nil t)
      | cons x xs =>
        rw [hsp] at hl
        rcases List.mem_cons.mp hl with rfl | hl
        · intro hmem
          rcases List.mem_cons.mp hmem with h' | h'
          · exact hc h'.symm
          · exact ih x (by rw [hsp]; simp) h'
        · exact ih l (by rw [hsp]; exact List.mem_cons_of_mem _ hl)

theorem splitlines_no_nl (s : Str) : ∀ l ∈ splitlines s, '\n' ∉ l := by
  intro l hl
  unfold splitlines at hl
  by_cases hs : s = []
  · rw [if_pos hs] at hl
    simp at hl
  · rw [if_neg hs] at hl
    dsimp only at hl
    by_cases hlast : (splitNl s).getLast? = some []
    · rw [if_pos hlast] at hl
      exact splitNl_mem_no_nl s l ((List.dropLast_sublist _).mem hl)
    · rw [if_neg hlast] at hl
      exact splitNl_mem_no_nl s l hl

theorem joinNl_last_char (ls : List Str)
    (hlt : ∀ l ∈ ls, ∀ c, l.getLast? = some c → pySpace c = false)
    (h7 : ¬ ls.getLast? = some []) :
    ∀ c, (joinNl ls).getLast? = some c → pySpace c = false := by
  induction ls with
  | nil => intro c hc; simp [joinNl] at hc
  | cons x t ih =>
    cases t with
    | nil =>
      intro c hc
      exact hlt x (by simp) c (by simpa [joinNl] using hc)
    | cons y ys =>
      intro c hc
      rw [joinNl_cons₂, List.getLast?_append] at hc
      have hne : ('\n' :: joinNl (y :: ys)).getLast? ≠ none := by
        intro hnone
        rw [List.getLast?_eq_none_iff] at hnone
        simp at hnone
      cases hx : ('\n' :: joinNl (y :: ys)).getLast? with
      | none => exact absurd hx hne
      | some d =>
        rw [hx] at hc
        simp only [Option.or] at hc
        have hdc : d = c := by injection hc
        subst hdc
        have h7' : ¬ (y :: ys).getLast? = some [] := by
          rwa [List.getLast?_cons_cons] at h7
        cases hJ : joinNl (y :: ys) with
        | nil =>
          rcases joinNl_eq_nil_cases _ hJ with h' | h'
          · simp at h'
          · rw [h'] at h7'
            simp at h7'
        | cons e es =>
          rw [hJ, List.getLast?_cons_cons] at hx
          refine ih (fun l hl => hlt l (List.mem_cons_of_mem _ hl)) h7' d ?_
          rw [hJ]
          exact hx

theorem stripWS_joinNl_id (ls : List Str) (h1 : ls ≠ [])
    (hhd : ∀ l ∈ ls, ∀ c, l.head? = some c → pySpace c = false)
    (hlt : ∀ l ∈ ls, ∀ c, l.getLast? = some c → pySpace c = false)
    (h6 : ¬ ls.head? = some []) (h7 : ¬ ls.getLast? = some []) :
    stripWS (joinNl ls) = joinNl ls := by
  refine stripWS_eq_self _ ?_ (joinNl_last_char ls hlt h7)
  intro c hc
  cases ls with
  | nil => exact absurd rfl h1
  | cons x t =>
    have hx : x ≠ [] := by
      intro he
      rw [he] at h6
      exact h6 rfl
    rw [joinNl_head x t hx] at hc
    exact hhd x (by simp) c hc

/-- Pass-2 identity: a line list satisfying the shaping invariants is
fixed by the whole (non-all-day) shaping pipeline up to truncation. -/
theorem shape_core_fix (ls : List Str)
    (h1 : ls ≠ [])
    (h2 : ∀ l ∈ ls, NiceLn l)
    (h3 : ∀ l ∈ ls, '\n' ∉ l)
    (h4 : chainBlank ls) (h5 : chainLabel ls)
    (h6 : ¬ ls.head? = some []) (h7 : ¬ ls.getLast? = some []) :
    shape_core (joinNl ls) false = joinNl ls := by
  unfold shape_core
  rw [splitlines_joinNl ls h1 h3 h7]
  have hmap : ls.map lineShape = ls := by
    have h := List.map_congr_left (f := lineShape) (g := id)
      (fun l hl => lineShape_fix l (h2 l hl))
    rw [h, List.map_id]
  rw [hmap]
  rw [shape_lines_id ls 0 false 0 h4 h5 (by simp) (by simp)]
  exact stripWS_joinNl_id ls h1 (fun l hl => (h2 l hl).2.1)
    (fun l hl => (h2 l hl).2.2) h6 h7

/-- Pass-1 structure: the shaped core text is the newline-join of a line
list satisfying all the shaping invariants. -/
theorem shape_core_struct (desc : Str) (ad : Bool) :
    ∃ ls : List Str,
      shape_core desc ad = joinNl ls ∧
      (∀ l ∈ ls, NiceLn l) ∧ (∀ l ∈ ls, '\n' ∉ l) ∧
      chainBlank ls ∧ chainLabel ls ∧
      ¬ ls.head? = some [] ∧ ¬ ls.getLast? = some [] := by
  obtain ⟨s1, s2, s3, _s4, _s5⟩ :=
    shape_lines_inv ((splitlines desc).map lineShape) ad 0 false 0 (fun _ => rfl)
  have hmem : ∀ l ∈ shape_lines ad 0 false 0 ((splitlines desc).map lineShape),
      NiceLn l := by
    intro l hl
    rcases List.mem_map.mp (s1.mem hl) with ⟨x, _, rfl⟩
    exact lineShape_nice x
  have hnl : ∀ l ∈ shape_lines ad 0 false 0 ((splitlines desc).map lineShape),
      '\n' ∉ l := by
    intro l hl
    rcases List.mem_map.mp (s1.mem hl) with ⟨x, hx, rfl⟩
    exact nl_not_in_lineShape x (splitlines_no_nl desc x hx)
  refine ⟨trimB (shape_lines ad 0 false 0 ((splitlines desc).map lineShape)),
    ?_,
    fun l hl => hmem l (mem_trimB _ l hl),
    fun l hl => hnl l (mem_trimB _ l hl),
    chainBlank_trimB _ s2, chainLabel_trimB _ s3,
    trimB_head_ne _ s2, trimB_getLast_ne _ s2⟩
  unfold shape_core
  exact stripWS_joinNl _ s2 (fun l hl => (hmem l hl).2.1) (fun l hl => (hmem l hl).2.2)

theorem ipo_append_excl (q : Str) (c : Char) (hq : q.head? = some c) :
    ∀ (p lab : Str), c ∉ lab → lab.isPrefixOf (p ++ q) = true →
      lab.isPrefixOf p = true := by
  intro p
  induction p with
  | nil =>
    intro lab hc hpre
    cases lab with
    | nil => rfl
    | cons d ds =>
      exfalso
      cases q with
      | nil => simp at hq
      | cons e es =>
        simp only [List.head?_cons, Option.some.injEq] at hq
        subst hq
        rw [List.nil_append] at hpre
        rw [show (d :: ds).isPrefixOf (e :: es) = ((d == e) && ds.isPrefixOf es)
          from rfl] at hpre
        rcases Bool.and_eq_true_iff.mp hpre with ⟨h1, _⟩
        exact hc (by rw [show d = e from by simpa using h1]; simp)
  | cons a p' ih =>
    intro lab hc hpre
    cases lab with
    | nil => rfl
    | cons d ds =>
      rw [List.cons_append] at hpre
      rw [show (d :: ds).isPrefixOf (a :: (p' ++ q)) = ((d == a) && ds.isPrefixOf (p' ++ q))
        from rfl] at hpre
      rcases Bool.and_eq_true_iff.mp hpre with ⟨h1, h2⟩
      rw [show (d :: ds).isPrefixOf (a :: p') = ((d == a) && ds.isPrefixOf p') from rfl]
      exact Bool.and_eq_true_iff.mpr ⟨h1, ih ds (fun hm => hc (List.mem_cons_of_mem _ hm)) h2⟩

theorem ipo_take (x : Str) : ∀ (lab : Str) (m : Nat),
    lab.isPrefixOf (x.take m) = true → lab.isPrefixOf x = true := by
  induction x with
  | nil =>
    intro lab m h
    simpa using h
  | cons a xs ih =>
    intro lab m h
    cases lab with
    | nil => rfl
    | cons d ds =>
      cases m with
      | zero => simp [List.isPrefixOf] at h
      | succ k =>
        rw [List.take_succ_cons] at h
        rw [show (d :: ds).isPrefixOf (a :: xs.take k) = ((d == a) && ds.isPrefixOf (xs.take k))
          from rfl] at h
        rcases Bool.and_eq_true_iff.mp h with ⟨h1, h2⟩
        rw [show (d :: ds).isPrefixOf (a :: xs) = ((d == a) && ds.isPrefixOf xs) from rfl]
        exact Bool.and_eq_true_iff.mpr ⟨h1, ih ds k h2⟩

theorem isLabelLn_take_sfx (p : Str) (h : isLabelLn (p ++ ellipsisSfx) = true) :
    isLabelLn p = true :=
  ipo_append_excl ellipsisSfx '…' rfl p timeLabel (by decide) h

theorem isLabelLn_take (x : Str) (m : Nat) (h : isLabelLn (x.take m) = true) :
    isLabelLn x = true :=
  ipo_take x timeLabel m h

theorem ellipsisSfx_nonspace : ∀ c ∈ ellipsisSfx, pySpace c = false := by decide

theorem head?_take_sub (x : Str) (m : Nat) (c : Char)
    (h : (x.take m).head? = some c) : x.head? = some c := by
  cases x with
  | nil => simp at h
  | cons a t =>
    cases m with
    | zero => simp at h
    | succ k =>
      rw [List.take_succ_cons] at h
      exact h

theorem NiceLn_take_sfx (x : Str) (m : Nat) (h : NiceLn x) :
    NiceLn (x.take m ++ ellipsisSfx) := by
  refine ⟨?_, ?_, ?_⟩
  · refine List.Chain'.append (h.1.take m) (NiceLn_of_nonspace _ ellipsisSfx_nonspace).1 ?_
    intro a _ b hb
    simp only [Option.mem_def] at hb
    have : pySpace b = false := ellipsisSfx_nonspace b (List.mem_of_mem_head? (by rw [hb]; rfl))
    simp [this]
  · intro c hc
    cases htk : x.take m with
    | nil =>
      rw [htk, List.nil_append] at hc
      exact ellipsisSfx_nonspace c (List.mem_of_mem_head? (by rw [hc]; rfl))
    | cons a t =>
      rw [htk] at hc
      simp only [List.cons_append, List.head?_cons, Option.some.injEq] at hc
      subst hc
      refine h.2.1 a (head?_take_sub x m a ?_)
      rw [htk]
      rfl
  · intro c hc
    rw [List.getLast?_append] at hc
    rw [show ellipsisSfx.getLast? = some '）' from rfl] at hc
    simp only [Option.or] at hc
    have h' : '）' = c := by injection hc
    subst h'
    decide

theorem joinNl_cons_ne (a : Str) (t : List Str) (h : t ≠ []) :
    joinNl (a :: t) = a ++ '\n' :: joinNl t := by
  cases t with
  | nil => exact absurd rfl h
  | cons y ys => rfl

theorem single_block_props (h : Str) (m : Nat) (hnice : NiceLn h) (hnl : '\n' ∉ h) :
    (∀ l ∈ [h.take m ++ ellipsisSfx], NiceLn l) ∧
    (∀ l ∈ [h.take m ++ ellipsisSfx], '\n' ∉ l) ∧
    chainBlank [h.take m ++ ellipsisSfx] ∧ chainLabel [h.take m ++ ellipsisSfx] ∧
    ¬ ([h.take m ++ ellipsisSfx] : List Str).getLast? = some [] ∧
    (∀ x, ([h.take m ++ ellipsisSfx] : List Str).head? = some x →
      (x = [] → False) ∧ (isLabelLn x = true → isLabelLn h = true)) := by
  refine ⟨?_, ?_, List.chain'_singleton _, List.chain'_singleton _, ?_, ?_⟩
  · intro l hl
    simp only [List.mem_singleton] at hl
    subst hl
    exact NiceLn_take_sfx h m hnice
  · intro l hl
    simp only [List.mem_singleton] at hl
    subst hl
    intro hmem
    rcases List.mem_append.mp hmem with hmem | hmem
    · exact hnl ((List.take_sublist m h).mem hmem)
    · exact absurd hmem (by decide)
  · intro hlast
    have he : h.take m ++ ellipsisSfx = [] := by simpa using hlast
    rcases List.append_eq_nil.mp he with ⟨_, h2⟩
    exact absurd h2 (by decide)
  · intro x hx
    simp only [List.head?_cons, Option.some.injEq] at hx
    subst hx
    constructor
    · intro he
      rcases List.append_eq_nil.mp he with ⟨_, h2⟩
      exact absurd h2 (by decide)
    · intro hlab
      exact isLabelLn_take h m (isLabelLn_take_sfx _ hlab)

/-- Cutting `m ≥ 1` characters off a good joined line list and appending
the ellipsis yields another good joined line list. -/
theorem take_sfx_decomp (ls : List Str) : ∀ (m : Nat),
    (∀ l ∈ ls, NiceLn l) → (∀ l ∈ ls, '\n' ∉ l) →
    chainBlank ls → chainLabel ls →
    1 ≤ m → m < (joinNl ls).length →
    ∃ ls' : List Str,
      joinNl ls' = (joinNl ls).take m ++ ellipsisSfx ∧
      ls' ≠ [] ∧
      (∀ l ∈ ls', NiceLn l) ∧ (∀ l ∈ ls', '\n' ∉ l) ∧
      chainBlank ls' ∧ chainLabel ls' ∧
      ¬ ls'.getLast? = some [] ∧
      (∀ x, ls'.head? = some x →
        (x = [] → ls.head? = some []) ∧
        (isLabelLn x = true → ∃ y, ls.head? = some y ∧ isLabelLn y = true)) := by
  induction ls with
  | nil =>
    intro m _ _ _ _ _ hlt
    rw [show joinNl [] = [] from rfl] at hlt
    simp at hlt
  | cons h t ih =>
    intro m hnice hnl hcb hcl hm1 hmlt
    have hniceh : NiceLn h := hnice h (by simp)
    have hnlh : '\n' ∉ h := hnl h (by simp)
    obtain ⟨p1, p2, p3, p4, p5, p6⟩ := single_block_props h m hniceh hnlh
    cases t with
    | nil =>
      rw [show joinNl [h] = h from rfl] at hmlt ⊢
      refine ⟨[h.take m ++ ellipsisSfx], rfl, by simp, p1, p2, p3, p4, p5, ?_⟩
      intro x hx
      refine ⟨fun he => absurd he (fun hee => (p6 x hx).1 hee), ?_⟩
      · intro hlab
        exact ⟨h, rfl, (p6 x hx).2 hlab⟩
    | cons y ys =>
      have hlen : (joinNl (h :: y :: ys)).length
          = h.length + 1 + (joinNl (y :: ys)).length := by
        rw [joinNl_cons₂, List.length_append, List.length_cons]
        omega
      by_cases hle : m ≤ h.length
      · have htake : (joinNl (h :: y :: ys)).take m = h.take m := by
          rw [joinNl_cons₂]
          exact List.take_append_of_le_length hle
        rw [htake]
        refine ⟨[h.take m ++ ellipsisSfx], rfl, by simp, p1, p2, p3, p4, p5, ?_⟩
        intro x hx
        refine ⟨fun he => absurd he (fun hee => (p6 x hx).1 hee), ?_⟩
        intro hlab
        exact ⟨h, rfl, (p6 x hx).2 hlab⟩
      · by_cases heq : m = h.length + 1
        · have htake : (joinNl (h :: y :: ys)).take m = h ++ ['\n'] := by
            rw [joinNl_cons₂, List.take_append_eq_append_take,
              List.take_of_length_le (by omega)]
            rw [show m - h.length = 1 by omega]
            rfl
          rw [htake]
          refine ⟨[h, ellipsisSfx], ?_, by simp, ?_, ?_, ?_, ?_, ?_, ?_⟩
          · rw [joinNl_cons_ne _ _ (by simp), show joinNl [ellipsisSfx] = ellipsisSfx from rfl,
              List.append_assoc]
            rfl
          · intro l hl
            rcases List.mem_cons.mp hl with rfl | hl
            · exact hniceh
            · simp only [List.mem_singleton] at hl
              subst hl
              exact NiceLn_of_nonspace _ ellipsisSfx_nonspace
          · intro l hl
            rcases List.mem_cons.mp hl with rfl | hl
            · exact hnlh
            · simp only [List.mem_singleton] at hl
              subst hl
              decide
          · rw [chainBlank, List.chain'_pair]
            rintro ⟨_, h2⟩
            exact absurd h2 (by decide)
          · rw [chainLabel, List.chain'_pair]
            rintro ⟨_, h2⟩
            exact absurd h2 (by decide)
          · intro hlast
            have : ellipsisSfx = ([] : Str) := by simpa using hlast
            exact absurd this (by decide)
          · intro x hx
            simp only [List.head?_cons, Option.some.injEq] at hx
            subst hx
            exact ⟨fun he => by rw [he]; rfl, fun hlab => ⟨h, rfl, hlab⟩⟩
        · -- m ≥ h.length + 2
          have hm2 : h.length + 2 ≤ m := by omega
          have hm' : m - h.length - 1 < (joinNl (y :: ys)).length := by omega
          have hm'1 : 1 ≤ m - h.length - 1 := by omega
          obtain ⟨ls'', e1, e2, e3, e4, e5, e6, e7, e8⟩ :=
            ih (m - h.length - 1)
              (fun l hl => hnice l (List.mem_cons_of_mem _ hl))
              (fun l hl => hnl l (List.mem_cons_of_mem _ hl))
              ((List.chain'_cons'.mp hcb).2) ((List.chain'_cons'.mp hcl).2)
              hm'1 hm'
          have htake : (joinNl (h :: y :: ys)).take m
              = h ++ '\n' :: (joinNl (y :: ys)).take (m - h.length - 1) := by
            rw [joinNl_cons₂, List.take_append_eq_append_take,
              List.take_of_length_le (by omega)]
            rw [show m - h.length = (m - h.length - 1) + 1 by omega]
            rfl
          refine ⟨h :: ls'', ?_, by simp, ?_, ?_, ?_, ?_, ?_, ?_⟩
          · rw [joinNl_cons_ne _ _ e2, e1, htake, List.append_assoc]
            rfl
          · intro l hl
            rcases List.mem_cons.mp hl with rfl | hl
            · exact hniceh
            · exact e3 l hl
          · intro l hl
            rcases List.mem_cons.mp hl with rfl | hl
            · exact hnlh
            · exact e4 l hl
          · rw [chainBlank, List.chain'_cons']
            refine ⟨?_, e5⟩
            intro z hz
            rintro ⟨hh, hze⟩
            have hy := (e8 z hz).1 hze
            simp only [List.head?_cons, Option.some.injEq] at hy
            exact ((List.chain'_cons'.mp hcb).1 y rfl) ⟨hh, hy.symm ▸ rfl⟩
          · rw [chainLabel, List.chain'_cons']
            refine ⟨?_, e6⟩
            intro z hz
            rintro ⟨hh, hze⟩
            rcases (e8 z hz).2 hze with ⟨w, hw, hwl⟩
            simp only [List.head?_cons, Option.some.injEq] at hw
            subst hw
            exact ((List.chain'_cons'.mp hcl).1 y rfl) ⟨hh, hwl⟩
          · intro hlast
            cases hls : ls'' with
            | nil => exact e2 hls
            | cons z zs =>
              rw [hls] at hlast
              rw [List.getLast?_cons_cons] at hlast
              rw [hls] at e7
              exact e7 hlast
          · intro x hx
            simp only [List.head?_cons, Option.some.injEq] at hx
            subst hx
            exact ⟨fun he => by rw [he]; rfl, fun hlab => ⟨h, rfl, hlab⟩⟩

theorem shape_memo_nil (maxLen : Int) (ad : Bool) : shape_memo [] maxLen ad = [] := by
  simp [shape_memo]

theorem shape_memo_eq (desc : Str) (maxLen : Int) (ad : Bool) (hd : desc ≠ []) :
    shape_memo desc maxLen ad =
      if 0 < maxLen ∧ maxLen < ((shape_core desc ad).length : Int) then
        (shape_core desc ad).take maxLen.toNat ++ ellipsisSfx
      else shape_core desc ad := by
  simp only [shape_memo, if_neg hd]

/-- C3, the claim as stated is false on the code: for an all-day-like
event, the all-day marker-line removal applies only within the first
three raw lines, so a marker line surviving at a later index can move
into the first three lines of the shaped output and be removed by a
second application — `shape(shape(x)) ≠ shape(x)` for
`x = "\n\n\n【開催時刻】終日"`, `max = 180`, `allday = true`. -/
theorem shape_memo_not_idempotent_cex :
    ¬ shape_memo (shape_memo (("\n\n\n【開催時刻】終日").toList) 180 true) 180 true
      = shape_memo (("\n\n\n【開催時刻】終日").toList) 180 true := by
  decide

/-- C3 (amended): memo shaping is idempotent for every input text and
every maximum length when the event is not all-day-like:
`shape(shape(x, m, false), m, false) = shape(x, m, false)`.  (For
all-day-like events idempotence can fail, see the counterexample.) -/
theorem shape_memo_idempotent_nonallday (desc : Str) (maxLen : Int) :
    shape_memo (shape_memo desc maxLen false) maxLen false
      = shape_memo desc maxLen false := by
  by_cases hd : desc = []
  · subst hd
    rw [shape_memo_nil, shape_memo_nil]
  · obtain ⟨ls, hls, hn1, hn2, hn3, hn4, hn5, hn6⟩ := shape_core_struct desc false
    by_cases hcond : 0 < maxLen ∧ maxLen < ((shape_core desc false).length : Int)
    · -- pass 1 truncates
      have hms : (maxLen.toNat : Int) = maxLen := Int.toNat_of_nonneg (le_of_lt hcond.1)
      have hm1 : 1 ≤ maxLen.toNat := by omega
      have hmlt : maxLen.toNat < (shape_core desc false).length := by
        have h2 := hcond.2
        omega
      have hS : shape_memo desc maxLen false
          = (shape_core desc false).take maxLen.toNat ++ ellipsisSfx := by
        rw [shape_memo_eq desc maxLen false hd, if_pos hcond]
      have hmlt' : maxLen.toNat < (joinNl ls).length := by
        rw [← hls]
        exact hmlt
      obtain ⟨ls', e1, e2, e3, e4, e5, e6, e7, e8⟩ :=
        take_sfx_decomp ls maxLen.toNat hn1 hn2 hn3 hn4 hm1 hmlt'
      have hS' : shape_memo desc maxLen false = joinNl ls' := by
        rw [hS, hls, e1]
      have e9 : ¬ ls'.head? = some [] := by
        intro hx
        exact hn5 ((e8 [] hx).1 rfl)
      have hfix : shape_core (joinNl ls') false = joinNl ls' :=
        shape_core_fix ls' e2 e3 e4 e5 e6 e9 e7
      have h7 : ellipsisSfx.length = 7 := by decide
      have hlen' : (joinNl ls').length = maxLen.toNat + ellipsisSfx.length := by
        rw [e1, List.length_append, List.length_take]
        have hmin : min maxLen.toNat (joinNl ls).length = maxLen.toNat :=
          Nat.min_eq_left (le_of_lt hmlt')
        rw [hmin]
      have hne' : joinNl ls' ≠ [] := by
        intro he
        rw [he] at hlen'
        simp only [List.length_nil] at hlen'
        omega
      rw [hS']
      rw [shape_memo_eq _ maxLen false hne', hfix]
      rw [if_pos (by
        refine ⟨hcond.1, ?_⟩
        rw [hlen', h7]
        push_cast
        omega)]
      rw [e1]
      have htk : (((joinNl ls).take maxLen.toNat ++ ellipsisSfx)).take maxLen.toNat
          = (joinNl ls).take maxLen.toNat := by
        rw [List.take_append_of_le_length (by
          rw [List.length_take]
          omega)]
        rw [List.take_take, Nat.min_self]
      rw [htk]
    · -- pass 1 does not truncate
      have hS : shape_memo desc maxLen false = shape_core desc false := by
        rw [shape_memo_eq desc maxLen false hd, if_neg hcond]
      by_cases hse : shape_core desc false = []
      · rw [hS, hse, shape_memo_nil]
      · have hlsne : ls ≠ [] := by
          intro he
          rw [he] at hls
          exact hse (by rw [hls]; rfl)
        have hfix : shape_core (shape_core desc false) false = shape_core desc false := by
          rw [hls]
          exact shape_core_fix ls hlsne hn1 hn2 hn3 hn4 hn5 hn6
        rw [hS, shape_memo_eq _ maxLen false hse, hfix, if_neg hcond]
